import Mathlib

/-!
Verification of the rule-matching dialogue policy (`rasa/core/policies/rule_policy.py`).

Strings are modelled as lists of characters (`Str`), so that Python's string
operations (`split`, `strip`, slicing, substring tests, `len`) become ordinary
list functions.  Per-turn feature dictionaries are modelled as insertion-ordered
association lists from feature name to a numeric weight (Python dict semantics:
unique keys, insertion order preserved; truthiness of a dict is non-emptiness,
truthiness of a weight is positivity).
-/

namespace RulePolicyModel

/-- Python strings, as lists of characters. -/
abbrev Str := List Char

/-- A per-turn feature dictionary: feature name mapped to a numeric weight.
Weights are modelled as naturals; the code only ever tests them for positivity. -/
abbrev Turn := List (Str × Nat)

/-- A possibly absent turn (`None` entries produced by the external featurizer). -/
abbrev OTurn := Option Turn

/-- Python dict truthiness for a possibly absent turn: `None` and `{}` are falsy. -/
def truthy : OTurn → Bool
  | none => false
  | some s => !s.isEmpty

/-- The characters Python's `str.strip` / `str.split()` treat as whitespace. -/
def isPySpace (c : Char) : Bool :=
  c = ' ' || c = '\t' || c = '\n' || c = '\r' || c = '\x0b' || c = '\x0c'

/-- Python `str.strip()`: remove leading and trailing whitespace. -/
def pyStrip (l : Str) : Str :=
  ((l.dropWhile isPySpace).reverse.dropWhile isPySpace).reverse

/-- Split a list at every element satisfying `p`, keeping empty pieces
(the behaviour of Python's `str.split(sep)` for a one-character separator,
with `p` the test for that separator). -/
def splitPred (p : Char → Bool) : Str → List Str
  | [] => [[]]
  | c :: cs =>
    match splitPred p cs with
    | [] => [[]]
    | t :: ts => if p c then [] :: t :: ts else (c :: t) :: ts

/-- Python `key.split("|")`. -/
def splitBar (l : Str) : List Str := splitPred (fun c => c = '|') l

/-- Python `s.split()` (no argument): split on whitespace runs, dropping
empty pieces. -/
def pySplitWhite (l : Str) : List Str :=
  (splitPred isPySpace l).filter (fun t => !t.isEmpty)

/-- Python dict lookup `d.get(k)` on an association list. -/
def dictGet? {β : Type} (d : List (Str × β)) (k : Str) : Option β :=
  (d.find? (fun p => p.1 = k)).map Prod.snd

/-- Python dict assignment `d[k] = v`: overwrite in place if the key exists
(keeping its position), otherwise append. -/
def dictSet {β : Type} (d : List (Str × β)) (k : Str) (v : β) : List (Str × β) :=
  if (d.map Prod.fst).contains k then
    d.map (fun p => if p.1 = k then (k, v) else p)
  else d ++ [(k, v)]

/-- Python dict deletion `del d[k]`. -/
def dictDel {β : Type} (d : List (Str × β)) (k : Str) : List (Str × β) :=
  d.filter (fun p => p.1 ≠ k)

/-- Python set equality of two collections represented as lists. -/
def listSetEq (a b : List Str) : Bool :=
  a.all (fun x => b.contains x) && b.all (fun x => a.contains x)

/-- Python's substring test `pat in s`. -/
def subInStr (pat s : Str) : Bool :=
  (List.range (s.length + 1)).any (fun i => pat.isPrefixOf (s.drop i))

/-- Python `s[: s.rfind("_")]`: everything before the last underscore; when no
underscore occurs, `rfind` is `-1` and the slice drops the last character. -/
def sliceToLastUnderscore (s : Str) : Str :=
  if s.contains '_' then ((s.reverse.dropWhile (fun c => c ≠ '_')).tail).reverse
  else s.dropLast

/-- Name of the listen-for-input action (`ACTION_LISTEN_NAME`). -/
def actionListenName : Str := "action_listen".toList

/-- Name of the internal rule-snippet placeholder action
(`RULE_SNIPPET_ACTION_NAME`), spelled `...` in keys. -/
def ruleSnippetActionName : Str := "...".toList

/-- The `PREV_PREFIX` marker put in front of previous-action features. -/
def prevPfx : Str := "prev_".toList

/-- The `ACTIVE_FORM_PREFIX` marker put in front of active-form features. -/
def activeFormPfx : Str := "active_form_".toList

/-- The `NO_VALIDATION` marker stored in the negative lookup. -/
def noValidation : Str := "no_validation".toList

/-- The `NO_ACTIVE_FORM` marker stored in the negative lookup. -/
def noActiveForm : Str := "no_active_form".toList

/-- The fixed `DEFAULT_ACTION_MAPPINGS` table from the three reserved user
intents to the three fixed default actions. -/
def defaultActionMappings : List (Str × Str) :=
  [("restart".toList, "action_restart".toList),
   ("back".toList, "action_back".toList),
   ("session_start".toList, "action_session_start".toList)]

/-- The inner loop of `_create_feature_key` for one truthy state: append every
feature name followed by a space (`feature_str += feature + " "`). -/
def joinedKeys (s : Turn) : Str :=
  (s.map Prod.fst).foldl (fun a f => a ++ f ++ [' ']) []

/-- The loop of `_create_feature_key`, with `featureStr` the accumulated string:
truthy states append a separator and their space-joined feature names and the
whole string is stripped; falsy states (absent or empty) contribute nothing. -/
def createFeatureKeyFrom (featureStr : Str) : List OTurn → Str
  | [] => featureStr
  | st :: rest =>
    if truthy st then
      createFeatureKeyFrom (pyStrip (featureStr ++ '|' :: joinedKeys (st.getD []))) rest
    else createFeatureKeyFrom featureStr rest

/-- `RulePolicy._create_feature_key`: canonical string key of a turn sequence. -/
def createFeatureKey (states : List OTurn) : Str :=
  createFeatureKeyFrom [] states

/-- `RulePolicy._features_in_state`: check that every feature token of a rule
turn is satisfied by the given state turn.  A token ending in `_None` requires
that no state feature contain its base name as a substring; slot tokens must
match the state's slot features per base name exactly as sets. -/
def featuresInState (features : List Str) (state : Turn) : Bool :=
  let stateKeys := state.map Prod.fst
  if features.any (fun f =>
      if "_None".toList.isSuffixOf f then
        stateKeys.any (fun k => subInStr (sliceToLastUnderscore f) k)
      else !stateKeys.contains f) then
    false
  else
    -- the final loop over `f_slots.items()`; iterating over the features that
    -- were collected into `f_slots` and checking their base's group each time
    -- is equivalent to iterating over the collected bases once
    features.all (fun f =>
      if !("_None".toList.isSuffixOf f) && "slot".toList.isPrefixOf f then
        listSetEq
          (features.filter (fun g =>
            !("_None".toList.isSuffixOf g) && "slot".toList.isPrefixOf g &&
              sliceToLastUnderscore g = sliceToLastUnderscore f))
          (stateKeys.filter (fun s =>
            "slot".toList.isPrefixOf s &&
              sliceToLastUnderscore s = sliceToLastUnderscore f))
      else true)

/-- `RulePolicy._rule_is_good`: the rule key, split into turn segments and
walked most-recent-first, is satisfied by `state` at reverse index `turnIndex`. -/
def ruleIsGood (ruleKey : Str) (turnIndex : Nat) (state : Turn) : Bool :=
  let ruleTurns := (splitBar ruleKey).reverse
  decide (turnIndex ≥ ruleTurns.length)
  || ((ruleTurns.getD turnIndex []).isEmpty && state.isEmpty)
  || (!(ruleTurns.getD turnIndex []).isEmpty && !state.isEmpty
      && featuresInState (pySplitWhite (ruleTurns.getD turnIndex [])) state)

/-- `RulePolicy._get_active_form_name`: the first state feature containing
`active_form_` (other than `active_form_None`) with positive weight, with the
prefix length sliced off. -/
def getActiveFormName (state : Turn) : Option Str :=
  (state.filterMap (fun p =>
    if subInStr activeFormPfx p.1 && p.1 ≠ (activeFormPfx ++ "None".toList) && decide (p.2 > 0)
    then some (p.1.drop activeFormPfx.length) else none)).head?

/-- `RulePolicy._prev_action_listen_in_state`: some state feature contains
`prev_action_listen` with positive weight. -/
def prevActionListenInState (state : Turn) : Bool :=
  state.any (fun p => subInStr (prevPfx ++ actionListenName) p.1 && decide (p.2 > 0))

/-- `RulePolicy._modified_states` on the truncated two-turn window.  The Python
code sets `action_before_listen = None` when the first window state is `None`
and then unconditionally calls `action_before_listen.keys()`, raising
`AttributeError`; that raise is modelled as `Except.error`.  An empty window
(`states[0]` on an empty list) would raise `IndexError`, also an error. -/
def modifiedStates (states : List OTurn) : Except Unit (List OTurn) :=
  match states.head? with
  | none => .error ()
  | some st0 =>
    let actionBeforeListen : Option Turn :=
      match st0 with
      | none => none
      | some s => some (s.filter (fun p => subInStr prevPfx p.1 && decide (p.2 > 0)))
    match actionBeforeListen with
    | none => .error ()
    | some abl =>
      match states.getLast? with
      | none => .error ()
      | some lastSt =>
        if !((abl.map Prod.fst).contains (prevPfx ++ ruleSnippetActionName)) then
          .ok [some [(prevPfx ++ ruleSnippetActionName, 1)], some abl, lastSt]
        else .ok [some abl, lastSt]

/-- Modelled from the spec: the domain vocabulary (external to the examined
source) provides the action-name-to-index mapping; training and prediction
inputs are trusted to mention only known actions, so the mapping is modelled
as the total index-of function over the ordered action-name list. -/
structure Domain where
  actionNames : List Str
deriving DecidableEq

/-- Modelled from the spec: `domain.index_for_action`. -/
def Domain.indexForAction (d : Domain) (a : Str) : Nat :=
  d.actionNames.indexOf a

/-- A positive lookup table: feature key to action index. -/
abbrev Lookup := List (Str × Nat)

/-- A negative lookup table: feature key to marker string. -/
abbrev NegLookup := List (Str × Str)

/-- Modelled from the spec: `MemoizationPolicy._add_states_to_lookup` (outside
the examined source).  For each rule trace the full-history feature key is
inserted with the action taken at that point; a later write to an existing key
silently overwrites it. -/
def addStatesToLookup (lookup0 : Lookup) (statesList : List (List OTurn))
    (actionsList : List (List Str)) (d : Domain) : Lookup :=
  (statesList.zip actionsList).foldl (fun lk sa =>
    match sa.2.head? with
    | none => lk
    | some action => dictSet lk (createFeatureKey sa.1) (d.indexForAction action)) lookup0

/-- Index of the last occurrence of `pat` as a substring of `s`. -/
def lastInfixStart (pat s : Str) : Option Nat :=
  ((List.range (s.length + 1)).filter (fun i => pat.isPrefixOf (s.drop i))).getLast?

/-- The effect of `re.sub(r".*prev_\.\.\.[^|]*", "", key)`.  The leading greedy
`.*` makes the single match run from the start of the key through the last
occurrence of `prev_...` and then through the following run of non-separator
characters, so the substitution keeps exactly the part of the key after that
run; when `prev_...` does not occur, nothing matches and the key is unchanged. -/
def reSubPrevDots (key : Str) : Str :=
  match lastInfixStart (prevPfx ++ ruleSnippetActionName) key with
  | none => key
  | some i => (key.drop (i + (prevPfx ++ ruleSnippetActionName).length)).dropWhile (fun c => c ≠ '|')

/-- `RulePolicy._clean_feature_keys`, generic over the table's value type:
drop entries with no previous-action marker in the key or whose value is the
rule-snippet action (for the negative table the values are marker strings, so
that comparison with an action index is always false and `isSnippetVal` is
constantly false); rewrite keys containing the rule-snippet marker by erasing
the matched span, stripping a leading or trailing separator, re-inserting under
the new key and deleting the original. -/
def cleanFeatureKeysGen {β : Type} (isSnippetVal : β → Bool)
    (lookup : List (Str × β)) : List (Str × β) :=
  (lookup.map Prod.fst).foldl (fun updated key =>
    if !(subInStr prevPfx key) || ((dictGet? lookup key).map isSnippetVal).getD false then
      dictDel updated key
    else if subInStr ruleSnippetActionName key then
      let newKey0 := reSubPrevDots key
      let withNew :=
        if !newKey0.isEmpty then
          let newKey1 := if newKey0.headD ' ' = '|' then newKey0.drop 1 else newKey0
          let newKey2 := if newKey1.getLastD ' ' = '|' then newKey1.dropLast else newKey1
          match dictGet? lookup key with
          | some v => dictSet updated newKey2 v
          | none => updated
        else updated
      dictDel withNew key
    else updated) lookup

/-- `RulePolicy.train`, parameterized by the featurized rule and story traces
(the featurizer is an external collaborator).  Mining negative rules inspects
the last two turns of every trace whose final state has an active form;
failures raised by `_modified_states` (or by indexing an empty trace) are
propagated as `Except.error`. -/
def train (ruleStates : List (List OTurn)) (ruleActions : List (List Str))
    (storyStates : List (List OTurn)) (storyActions : List (List Str))
    (d : Domain) : Except Unit (Lookup × NegLookup) := do
  let lookup := addStatesToLookup [] ruleStates ruleActions d
  let lookup := cleanFeatureKeysGen
    (fun v => v == d.indexForAction ruleSnippetActionName) lookup
  let allStates := ruleStates ++ storyStates
  let allActions := ruleActions ++ storyActions
  let negative ← (allStates.zip allActions).foldlM (fun neg sa => do
    let (states, actions) := sa
    match states.getLast? with
    | none => .error ()
    | some lastOSt =>
      match lastOSt with
      | none => .error ()
      | some lastTurn =>
        match getActiveFormName lastTurn with
        | none => pure neg
        | some activeForm => do
          let window := states.drop (states.length - 2)
          let states2 ← modifiedStates window
          let featureKey := createFeatureKey states2
          match states2.getLast? with
          | none => .error ()
          | some none => .error ()
          | some (some lastTurn2) =>
            match actions.head? with
            | none => .error ()
            | some action0 =>
              if prevActionListenInState lastTurn2 && action0 == activeForm then
                pure (dictSet neg featureKey noValidation)
              else if !prevActionListenInState lastTurn2
                  && action0 ≠ actionListenName && action0 ≠ activeForm then
                pure (dictSet neg featureKey noActiveForm)
              else pure neg) ([] : NegLookup)
  let negative := cleanFeatureKeysGen (fun _ => false) negative
  pure (lookup, negative)

/-- Tracker events the policy can emit: the `FormValidation` event carrying
its validation flag. -/
inductive Event where
  | formValidation (flag : Bool)
deriving DecidableEq

/-- Modelled from the spec: the conversation tracker (an external collaborator)
supplies the latest executed action name, the latest parsed message's intent
name (`none` when there is no message, `some none` when the message has no
intent name), the active form's name and rejected flag, and the featurized
current turn sequence (`featurizer.prediction_states`); it records events
appended by `tracker.update`. -/
structure Tracker where
  latestActionName : Option Str
  latestMessage : Option (Option Str)
  activeForm : Option Str
  activeFormRejected : Bool
  states : List Turn
  events : List Event
deriving DecidableEq

/-- `tracker.update(event)`: append the event to the tracker's event log. -/
def Tracker.update (t : Tracker) (e : Event) : Tracker :=
  { t with events := t.events ++ [e] }

/-- The rule policy's in-memory state: the enabled flag (from the policy base
class, modelled from the spec's enabled/disabled tier) and the two rule
tables. -/
structure RulePolicy where
  isEnabled : Bool
  lookup : Lookup
  negativeLookup : NegLookup
deriving DecidableEq

/-- Modelled from the spec: `self._default_predictions(domain)`, the all-zero
vector over the domain's known actions (the base class is outside the examined
source).  Probabilities are exact zeros and ones, modelled as naturals. -/
def defaultPredictions (d : Domain) : List Nat :=
  List.replicate d.actionNames.length 0

/-- `_should_run_rasa_default_action`: when the latest action is listen and a
parsed message exists, return the default action mapped from the message's
intent name, if any. -/
def shouldRunRasaDefaultAction (t : Tracker) : Option Str :=
  if t.latestActionName ≠ some actionListenName ∨ t.latestMessage = none then none
  else
    match t.latestMessage with
    | some (some name) => dictGet? defaultActionMappings name
    | _ => none

/-- The candidate-filtering loop of `predict_action_probabilities`: walk the
current turn sequence most-recent-first and keep the keys that satisfy
`_rule_is_good` at every index. -/
def survivingKeys (keys : List Str) (states : List Turn) : List Str :=
  states.reverse.enum.foldl (fun ks p => ks.filter (fun k => ruleIsGood k p.1 p.2)) keys

/-- `max(possible_keys, key=len)`: a key of maximal length (the first such in
list order, a deterministic stand-in for Python's unspecified set order). -/
def maxByLen : List Str → Option Str
  | [] => none
  | k :: ks => some (ks.foldl (fun best x => if x.length > best.length then x else best) k)

/-- The surviving positive key chosen by longest-match, if any survive. -/
def recalledKey (p : RulePolicy) (states : List Turn) : Option Str :=
  maxByLen (survivingKeys (p.lookup.map Prod.fst) states)

/-- The action index recalled for the chosen key. -/
def recalledOf (p : RulePolicy) (states : List Turn) : Option Nat :=
  (recalledKey p states).bind (fun k => dictGet? p.lookup k)

/-- The markers of all surviving negative keys (`negative_recalled`). -/
def negMarkers (p : RulePolicy) (states : List Turn) : List (Option Str) :=
  (survivingKeys (p.negativeLookup.map Prod.fst) states).map
    (fun k => dictGet? p.negativeLookup k)

/-- The `predicted_listen_from_general_rule` test: a rule was recalled, it
predicts plain listen, and its key does not reference the active form `f`. -/
def predictedListenFromGeneralRule (p : RulePolicy) (d : Domain)
    (states : List Turn) (f : Str) : Bool :=
  match recalledOf p states, recalledKey p states with
  | some r, some k =>
    (d.actionNames.getD r []) == actionListenName && !(subInStr (activeFormPfx ++ f) k)
  | _, _ => false

/-- The full outcome of one prediction call: the probability vector, the
policy object after the call, and the tracker after the call. -/
structure PredictResult where
  probabilities : List Nat
  policy : RulePolicy
  tracker : Tracker
deriving DecidableEq

/-- `RulePolicy.predict_action_probabilities`: the three priority tiers
(disabled, default-action override, active-form drive) followed by rule
matching with the listen-override and negative-marker handling. -/
def predictFull (p : RulePolicy) (t : Tracker) (d : Domain) : PredictResult :=
  let result := defaultPredictions d
  if !p.isEnabled then ⟨result, p, t⟩
  else
    match shouldRunRasaDefaultAction t with
    | some name => ⟨result.set (d.indexForAction name) 1, p, t⟩
    | none =>
      let activeFormName := t.activeForm
      let rejected := t.activeFormRejected
      let shouldPredictForm :=
        activeFormName.isSome && !rejected && decide (t.latestActionName ≠ activeFormName)
      let shouldPredictListen :=
        activeFormName.isSome && !rejected && decide (t.latestActionName = activeFormName)
      if shouldPredictForm then
        ⟨result.set (d.indexForAction (activeFormName.getD [])) 1, p, t⟩
      else if shouldPredictListen then
        ⟨result.set (d.indexForAction actionListenName) 1, p, t⟩
      else
        let states := t.states
        let recalled := recalledOf p states
        let negativeRecalled := negMarkers p states
        match activeFormName with
        | some f =>
          if predictedListenFromGeneralRule p d states f then
            if !(negativeRecalled.contains (some noActiveForm)) then
              -- overwrite listen with the form and return at once: the
              -- NO_VALIDATION check below is not reached on this path
              ⟨result.set (d.indexForAction f) 1, p, t⟩
            else
              -- `recalled = None`: fall through with the recalled action
              -- suppressed, still performing the NO_VALIDATION check
              let t1 := if negativeRecalled.contains (some noValidation)
                then t.update (Event.formValidation false) else t
              ⟨result, p, t1⟩
          else
            let t1 := if negativeRecalled.contains (some noValidation)
              then t.update (Event.formValidation false) else t
            match recalled with
            | some r => ⟨result.set r 1, p, t1⟩
            | none => ⟨result, p, t1⟩
        | none =>
          match recalled with
          | some r => ⟨result.set r 1, p, t⟩
          | none => ⟨result, p, t⟩

/-- The persisted policy state: priority, the two rule tables (the max-history
marker is irrelevant to the loaded tables and omitted). -/
structure PersistedData where
  priority : Nat
  lookup : Lookup
  negativeLookup : NegLookup
deriving DecidableEq

/-- What the persistence path holds: the blob file may be absent, present but
unparseable by `json.loads`, or parseable to persisted data. -/
inductive Blob where
  | absent
  | malformed
  | parsed (data : PersistedData)
deriving DecidableEq

/-- The policy produced by the bare constructor `cls()`: the lookup tables
default to empty (the base-class default, modelled from the spec). -/
def emptyRulePolicy : RulePolicy :=
  { isEnabled := true, lookup := [], negativeLookup := [] }

/-- `RulePolicy.load`: an absent blob file falls back to the bare constructor;
a present file is parsed by `json.loads`, whose failure on a malformed blob
propagates as an error (the code installs no handler for it). -/
def load (b : Blob) : Except Unit RulePolicy :=
  match b with
  | .absent => .ok emptyRulePolicy
  | .malformed => .error ()
  | .parsed data =>
    .ok { isEnabled := true, lookup := data.lookup, negativeLookup := data.negativeLookup }

/-- Space-separated join of a list of names (the canonical segment form the
key builder produces for one turn). -/
def joinSp : List Str → Str
  | [] => []
  | [f] => f
  | f :: g :: rest => f ++ ' ' :: joinSp (g :: rest)

/-- The canonical key segment of one turn: its feature names joined by
spaces. -/
def seg (s : Turn) : Str := joinSp (s.map Prod.fst)

/-- A character that survives in a canonical segment: not whitespace and not
the turn separator. -/
def cleanChar (c : Char) : Bool := !isPySpace c && c ≠ '|'

/-- A feature name that round-trips through the key encoding: non-empty and
made of clean characters. -/
def sepFreeName (f : Str) : Bool := !f.isEmpty && f.all cleanChar

/-- A feature name that additionally avoids the `_None` must-be-absent marker
suffix. -/
def cleanFeatureName (f : Str) : Bool := sepFreeName f && !("_None".toList.isSuffixOf f)

theorem splitPred_ne_nil (p : Char → Bool) (l : Str) : splitPred p l ≠ [] := by
  cases l with
  | nil => simp [splitPred]
  | cons c cs =>
    unfold splitPred
    cases hs : splitPred p cs with
    | nil => simp
    | cons t ts => by_cases hc : p c = true <;> simp [hc]

theorem splitPred_cons_pos (p : Char → Bool) (c : Char) (cs : Str) (h : p c = true) :
    splitPred p (c :: cs) = [] :: splitPred p cs := by
  simp only [splitPred]
  cases hs : splitPred p cs with
  | nil => exact absurd hs (splitPred_ne_nil p cs)
  | cons t ts => simp [h]

theorem splitPred_cons_neg (p : Char → Bool) (c : Char) (cs : Str) (h : p c = false) :
    splitPred p (c :: cs) =
      (c :: (splitPred p cs).headD []) :: (splitPred p cs).tail := by
  simp only [splitPred]
  cases hs : splitPred p cs with
  | nil => exact absurd hs (splitPred_ne_nil p cs)
  | cons t ts => simp [h]

theorem splitPred_no (p : Char → Bool) (l : Str) (h : ∀ c ∈ l, p c = false) :
    splitPred p l = [l] := by
  induction l with
  | nil => simp [splitPred]
  | cons c cs ih =>
    have hc : p c = false := h c (List.mem_cons_self c cs)
    have ihs : splitPred p cs = [cs] := ih (fun x hx => h x (List.mem_cons_of_mem c hx))
    rw [splitPred_cons_neg p c cs hc, ihs]
    rfl

theorem splitPred_append_sep (p : Char → Bool) (s m : Str) (sep : Char)
    (hs : ∀ c ∈ s, p c = false) (hsep : p sep = true) :
    splitPred p (s ++ sep :: m) = s :: splitPred p m := by
  induction s with
  | nil => simpa using splitPred_cons_pos p sep m hsep
  | cons c s2 ih =>
    have hc : p c = false := hs c (List.mem_cons_self c s2)
    have ihs := ih (fun x hx => hs x (List.mem_cons_of_mem c hx))
    rw [List.cons_append, splitPred_cons_neg p c _ hc, ihs]
    rfl

theorem splitPred_flatten_cons (p : Char → Bool) (sep : Char) (segs : List Str)
    (hsegs : ∀ s ∈ segs, ∀ c ∈ s, p c = false) (hsep : p sep = true) :
    splitPred p ((segs.map (fun s => sep :: s)).flatten) = [] :: segs := by
  induction segs with
  | nil => simp [splitPred]
  | cons s rest ih =>
    have hs : ∀ c ∈ s, p c = false := hsegs s (List.mem_cons_self s rest)
    have ihr := ih (fun x hx => hsegs x (List.mem_cons_of_mem s hx))
    cases rest with
    | nil =>
      simp only [List.map_cons, List.map_nil, List.flatten_cons, List.flatten_nil,
        List.append_nil]
      rw [splitPred_cons_pos p sep s hsep, splitPred_no p s hs]
    | cons r1 r2 =>
      simp only [List.map_cons, List.flatten_cons] at ihr ⊢
      rw [List.cons_append, splitPred_cons_pos p sep _ hsep]
      rw [List.cons_append, splitPred_cons_pos p sep _ hsep] at ihr
      injection ihr with h1 hm
      rw [List.cons_append, splitPred_append_sep p s _ sep hs hsep, hm]

theorem foldl_join (names : List Str) : ∀ acc : Str,
    names.foldl (fun a f => a ++ f ++ [' ']) acc
      = acc ++ (names.map (fun f => f ++ [' '])).flatten := by
  induction names with
  | nil => intro acc; simp
  | cons n rest ih =>
    intro acc
    simp only [List.foldl_cons, List.map_cons, List.flatten_cons]
    rw [ih]
    simp [List.append_assoc]

theorem flatten_sp (names : List Str) (h : names ≠ []) :
    (names.map (fun f => f ++ [' '])).flatten = joinSp names ++ [' '] := by
  induction names with
  | nil => exact absurd rfl h
  | cons n rest ih =>
    cases rest with
    | nil => simp [joinSp]
    | cons m r2 =>
      simp only [List.map_cons, List.flatten_cons] at ih ⊢
      rw [ih (by simp), joinSp]
      simp

theorem joinedKeys_eq (s : Turn) (h : !s.isEmpty) :
    joinedKeys s = joinSp (s.map Prod.fst) ++ [' '] := by
  rw [joinedKeys, foldl_join, List.nil_append, flatten_sp]
  simp only [ne_eq, List.map_eq_nil_iff]
  intro hnil
  rw [hnil] at h
  simp at h

theorem mem_joinSp (names : List Str) (c : Char) (hc : c ∈ joinSp names) :
    c = ' ' ∨ ∃ n ∈ names, c ∈ n := by
  induction names with
  | nil => simp [joinSp] at hc
  | cons n rest ih =>
    cases rest with
    | nil =>
      simp only [joinSp] at hc
      exact Or.inr ⟨n, by simp, hc⟩
    | cons m r2 =>
      rw [joinSp] at hc
      rcases List.mem_append.mp hc with hn | hr
      · exact Or.inr ⟨n, by simp, hn⟩
      · rcases List.mem_cons.mp hr with hsp | hj
        · exact Or.inl hsp
        · rcases ih hj with hsp | ⟨x, hx, hcx⟩
          · exact Or.inl hsp
          · exact Or.inr ⟨x, List.mem_cons_of_mem n hx, hcx⟩

theorem joinSp_concat (names : List Str) (h : names ≠ [])
    (hclean : ∀ n ∈ names, n ≠ [] ∧ ∀ c ∈ n, cleanChar c = true) :
    ∃ r c, joinSp names = r ++ [c] ∧ cleanChar c = true := by
  induction names with
  | nil => exact absurd rfl h
  | cons n rest ih =>
    cases rest with
    | nil =>
      obtain ⟨hn, hcn⟩ := hclean n (by simp)
      rcases List.eq_nil_or_concat n with hnil | ⟨r, c, hrc⟩
      · exact absurd hnil hn
      · rw [List.concat_eq_append] at hrc
        exact ⟨r, c, hrc, hcn c (by rw [hrc]; simp)⟩
    | cons m r2 =>
      obtain ⟨r, c, hrc, hcc⟩ := ih (by simp)
        (fun x hx => hclean x (List.mem_cons_of_mem n hx))
      exact ⟨n ++ ' ' :: r, c, by rw [joinSp, hrc]; simp, hcc⟩

theorem joinSp_ne_nil (names : List Str) (h : names ≠ [])
    (hclean : ∀ n ∈ names, n ≠ [] ∧ ∀ c ∈ n, cleanChar c = true) :
    joinSp names ≠ [] := by
  obtain ⟨r, c, hrc, _⟩ := joinSp_concat names h hclean
  rw [hrc]
  simp

theorem dropWhile_head (p : Char → Bool) (c : Char) (l : Str) (h : p c = false) :
    (c :: l).dropWhile p = c :: l := by
  rw [List.dropWhile_cons, h]
  simp

theorem pyStrip_key (acc : Str) (names : List Str)
    (hacc : acc = [] ∨ ∃ c a2, acc = c :: a2 ∧ isPySpace c = false)
    (hnames : names ≠ [])
    (hclean : ∀ n ∈ names, n ≠ [] ∧ ∀ c ∈ n, cleanChar c = true) :
    pyStrip (acc ++ '|' :: (joinSp names ++ [' '])) = acc ++ '|' :: joinSp names := by
  have hbar : isPySpace '|' = false := by decide
  have hlead : (acc ++ '|' :: (joinSp names ++ [' '])).dropWhile isPySpace
      = acc ++ '|' :: (joinSp names ++ [' ']) := by
    rcases hacc with h0 | ⟨c, a2, hca, hc⟩
    · rw [h0, List.nil_append, dropWhile_head _ _ _ hbar]
    · rw [hca, List.cons_append, dropWhile_head _ _ _ hc]
  rw [pyStrip, hlead]
  obtain ⟨r, c, hrc, hcc⟩ := joinSp_concat names hnames hclean
  have hcsp : isPySpace c = false := by
    simp only [cleanChar, Bool.and_eq_true, Bool.not_eq_true'] at hcc
    exact hcc.1
  have hrev : (acc ++ '|' :: (joinSp names ++ [' '])).reverse
      = ' ' :: ((joinSp names).reverse ++ '|' :: acc.reverse) := by
    simp [List.reverse_append, List.reverse_cons, List.append_assoc]
  rw [hrev]
  have hspsp : isPySpace ' ' = true := by decide
  rw [List.dropWhile_cons, hspsp]
  simp only [if_true]
  have hrevj : (joinSp names).reverse = c :: r.reverse := by
    rw [hrc]
    simp
  rw [hrevj, List.cons_append, dropWhile_head _ _ _ hcsp, ← List.cons_append, ← hrevj]
  simp

theorem sepFreeName_spec (f : Str) (h : sepFreeName f = true) :
    f ≠ [] ∧ ∀ c ∈ f, cleanChar c = true := by
  simp only [sepFreeName, Bool.and_eq_true, Bool.not_eq_true', List.all_eq_true] at h
  refine ⟨?_, h.2⟩
  intro hnil
  rw [hnil] at h
  simp at h

theorem turn_names_clean (s : Turn) (hclean : ∀ q ∈ s, sepFreeName q.1 = true) :
    ∀ n ∈ s.map Prod.fst, n ≠ [] ∧ ∀ c ∈ n, cleanChar c = true := by
  intro n hn
  obtain ⟨q, hq, hqn⟩ := List.mem_map.mp hn
  exact hqn ▸ sepFreeName_spec q.1 (hclean q hq)

theorem createFrom_closed (states : List Turn)
    (hclean : ∀ s ∈ states, ∀ q ∈ s, sepFreeName q.1 = true) :
    ∀ acc : Str, (acc = [] ∨ ∃ c a2, acc = c :: a2 ∧ isPySpace c = false) →
    createFeatureKeyFrom acc (states.map some)
      = acc ++ ((states.filter (fun s => !s.isEmpty)).map (fun s => '|' :: seg s)).flatten := by
  induction states with
  | nil => intro acc _; simp [createFeatureKeyFrom]
  | cons s rest ih =>
    intro acc hacc
    have ih2 := ih (fun x hx => hclean x (List.mem_cons_of_mem s hx))
    by_cases hs : s.isEmpty
    · have htr : truthy (some s) = false := by simp [truthy, hs]
      simp only [List.map_cons, createFeatureKeyFrom, htr, Bool.false_eq_true, if_false]
      rw [List.filter_cons_of_neg (by simp [hs]), ih2 acc hacc]
    · have htr : truthy (some s) = true := by simp [truthy, hs]
      simp only [List.map_cons, createFeatureKeyFrom, htr, if_true]
      have hnames : s.map Prod.fst ≠ [] := by
        simp only [ne_eq, List.map_eq_nil_iff]
        intro hnil
        rw [hnil] at hs
        simp at hs
      have hcleanN := turn_names_clean s (hclean s (List.mem_cons_self s rest))
      rw [Option.getD_some, joinedKeys_eq s (by simp [hs]),
        pyStrip_key acc (s.map Prod.fst) hacc hnames hcleanN]
      have hacc2 : acc ++ '|' :: joinSp (s.map Prod.fst) = [] ∨
          ∃ c a2, acc ++ '|' :: joinSp (s.map Prod.fst) = c :: a2 ∧ isPySpace c = false := by
        rcases hacc with h0 | ⟨c, a2, hca, hc⟩
        · exact Or.inr ⟨'|', joinSp (s.map Prod.fst), by rw [h0]; rfl, by decide⟩
        · exact Or.inr ⟨c, a2 ++ '|' :: joinSp (s.map Prod.fst), by rw [hca]; rfl, hc⟩
      rw [ih2 _ hacc2, List.filter_cons_of_pos (by simp [hs])]
      simp [seg, List.append_assoc]

theorem createKey_closed (states : List Turn)
    (hclean : ∀ s ∈ states, ∀ q ∈ s, sepFreeName q.1 = true) :
    createFeatureKey (states.map some)
      = ((states.filter (fun s => !s.isEmpty)).map (fun s => '|' :: seg s)).flatten := by
  rw [createFeatureKey, createFrom_closed states hclean [] (Or.inl rfl), List.nil_append]

theorem splitBar_createKey (states : List Turn)
    (hclean : ∀ s ∈ states, ∀ q ∈ s, sepFreeName q.1 = true) :
    splitBar (createFeatureKey (states.map some))
      = if states.filter (fun s => !s.isEmpty) = [] then [[]]
        else [] :: (states.filter (fun s => !s.isEmpty)).map seg := by
  rw [createKey_closed states hclean]
  by_cases hf : states.filter (fun s => !s.isEmpty) = []
  · rw [hf, if_pos rfl]
    rfl
  · rw [if_neg hf]
    have hmm : (states.filter (fun s => !s.isEmpty)).map (fun s => '|' :: seg s)
        = ((states.filter (fun s => !s.isEmpty)).map seg).map (fun x => '|' :: x) := by
      rw [List.map_map]
      rfl
    rw [hmm, splitBar]
    apply splitPred_flatten_cons
    · intro x hx c hc
      obtain ⟨s, hsmem, hseq⟩ := List.mem_map.mp hx
      have hsorig : s ∈ states := List.mem_of_mem_filter hsmem
      have hc2 : c ∈ joinSp (s.map Prod.fst) := by
        rw [← hseq] at hc
        exact hc
      rcases mem_joinSp (s.map Prod.fst) c hc2 with hsp | ⟨n, hn, hcn⟩
      · subst hsp
        decide
    -- a clean character is never the separator
      · obtain ⟨_, hcl⟩ := turn_names_clean s (hclean s hsorig) n hn
        have := hcl c hcn
        simp only [cleanChar, Bool.and_eq_true] at this
        simpa using this.2
    · decide

theorem contains_of_mem (l : List Str) (x : Str) (h : x ∈ l) : l.contains x = true := by
  simp only [List.contains_eq_any_beq, List.any_eq_true]
  exact ⟨x, h, by simp⟩

theorem listSetEq_self (l : List Str) : listSetEq l l = true := by
  simp only [listSetEq, Bool.and_eq_true, List.all_eq_true]
  exact ⟨fun x hx => contains_of_mem l x hx, fun x hx => contains_of_mem l x hx⟩

theorem featuresInState_self (s : Turn)
    (hclean : ∀ q ∈ s, cleanFeatureName q.1 = true) :
    featuresInState (s.map Prod.fst) s = true := by
  have hnone : ∀ f ∈ s.map Prod.fst, ("_None".toList.isSuffixOf f) = false := by
    intro f hf
    obtain ⟨q, hq, hqf⟩ := List.mem_map.mp hf
    have := hclean q hq
    simp only [cleanFeatureName, Bool.and_eq_true, Bool.not_eq_true'] at this
    exact hqf ▸ this.2
  unfold featuresInState
  dsimp only
  have hany : ((s.map Prod.fst).any (fun f =>
      if "_None".toList.isSuffixOf f then
        (s.map Prod.fst).any (fun k => subInStr (sliceToLastUnderscore f) k)
      else !(s.map Prod.fst).contains f)) = false := by
    simp only [List.any_eq_false]
    intro f hf
    rw [hnone f hf]
    simp only [Bool.false_eq_true, if_false, Bool.not_eq_true, Bool.not_eq_true']
    rw [contains_of_mem _ f hf]
    simp
  rw [hany]
  simp only [Bool.false_eq_true, if_false, List.all_eq_true]
  intro f hf
  split
  · have hfil : ((s.map Prod.fst).filter (fun g =>
        !("_None".toList.isSuffixOf g) && ("slot".toList.isPrefixOf g) &&
          sliceToLastUnderscore g = sliceToLastUnderscore f))
        = ((s.map Prod.fst).filter (fun g =>
        ("slot".toList.isPrefixOf g) && sliceToLastUnderscore g = sliceToLastUnderscore f)) := by
      apply List.filter_congr
      intro g hg
      rw [hnone g hg]
      simp
    rw [hfil]
    exact listSetEq_self _
  · rfl

theorem cleanChar_not_space (c : Char) (h : cleanChar c = true) : isPySpace c = false := by
  simp only [cleanChar, Bool.and_eq_true, Bool.not_eq_true'] at h
  exact h.1

theorem pySplitWhite_joinSp (names : List Str)
    (hclean : ∀ n ∈ names, n ≠ [] ∧ ∀ c ∈ n, cleanChar c = true) :
    pySplitWhite (joinSp names) = names := by
  induction names with
  | nil => rfl
  | cons n rest ih =>
    obtain ⟨hn, hcn⟩ := hclean n (List.mem_cons_self n rest)
    have hnsp : ∀ c ∈ n, isPySpace c = false :=
      fun c hc => cleanChar_not_space c (hcn c hc)
    cases rest with
    | nil =>
      show (splitPred isPySpace (joinSp [n])).filter (fun t => !t.isEmpty) = [n]
      have : joinSp [n] = n := rfl
      rw [this, splitPred_no isPySpace n hnsp]
      simp [List.filter_cons, List.isEmpty_eq_false.mpr hn]
    | cons m r2 =>
      have ihr := ih (fun x hx => hclean x (List.mem_cons_of_mem n hx))
      show (splitPred isPySpace (joinSp (n :: m :: r2))).filter (fun t => !t.isEmpty)
        = n :: m :: r2
      rw [joinSp, splitPred_append_sep isPySpace n _ ' ' hnsp (by decide)]
      rw [List.filter_cons_of_pos (by simp [List.isEmpty_eq_false.mpr hn])]
      rw [show (splitPred isPySpace (joinSp (m :: r2))).filter (fun t => !t.isEmpty)
        = pySplitWhite (joinSp (m :: r2)) from rfl, ihr]

/-- C1 (amended): self-match soundness holds for every turn sequence whose
turns all have at least one feature and whose feature names are non-empty,
contain neither whitespace nor the turn separator, and do not end in the
`_None` must-be-absent marker: the feature key built from such a sequence,
matched back against the same sequence walked most-recent-first, satisfies
the rule-match predicate at every turn index. -/
theorem c1_self_match_sound_amended (states : List Turn)
    (hne : ∀ s ∈ states, s ≠ [])
    (hclean : ∀ s ∈ states, ∀ q ∈ s, cleanFeatureName q.1 = true)
    (i : Nat) (hi : i < states.length) :
    ruleIsGood (createFeatureKey (states.map some)) i (states.reverse.getD i []) = true := by
  have hcleanSep : ∀ s ∈ states, ∀ q ∈ s, sepFreeName q.1 = true := by
    intro s hs q hq
    have := hclean s hs q hq
    simp only [cleanFeatureName, Bool.and_eq_true] at this
    exact this.1
  have hfil : states.filter (fun s => !s.isEmpty) = states :=
    List.filter_eq_self.mpr (fun s hs => by
      simp [List.isEmpty_eq_false.mpr (hne s hs)])
  have hsplit : splitBar (createFeatureKey (states.map some)) = [] :: states.map seg := by
    rw [splitBar_createKey states hcleanSep, hfil, if_neg]
    intro h0
    rw [h0] at hi
    simp at hi
  unfold ruleIsGood
  rw [hsplit]
  have hrev : ([] :: states.map seg).reverse = (states.reverse.map seg) ++ [[]] := by
    rw [List.reverse_cons, List.map_reverse]
  rw [hrev]
  have hlen : (states.reverse.map seg).length = states.length := by simp
  have hirev : i < states.reverse.length := by simpa using hi
  have hig : i < (states.reverse.map seg).length := by rw [hlen]; exact hi
  have hgetD : ((states.reverse.map seg) ++ [[]]).getD i []
      = seg (states.reverse.getD i []) := by
    rw [List.getD_append _ _ _ i hig, List.getD_eq_getElem _ _ hig, List.getElem_map,
      List.getD_eq_getElem _ _ hirev]
  dsimp only
  rw [hgetD]
  set s := states.reverse.getD i [] with hsdef
  have hsmem : s ∈ states := by
    rw [hsdef, List.getD_eq_getElem _ _ hirev]
    exact List.mem_reverse.mp (List.getElem_mem hirev)
  have hsne : s ≠ [] := hne s hsmem
  have hnames : s.map Prod.fst ≠ [] := by simpa using hsne
  have hcleanN : ∀ n ∈ s.map Prod.fst, n ≠ [] ∧ ∀ c ∈ n, cleanChar c = true :=
    turn_names_clean s (hcleanSep s hsmem)
  have hsegne : seg s ≠ [] := joinSp_ne_nil _ hnames hcleanN
  have hfeat : featuresInState (pySplitWhite (seg s)) s = true := by
    rw [seg, pySplitWhite_joinSp _ hcleanN]
    exact featuresInState_self s (hclean s hsmem)
  rw [hfeat]
  simp [List.isEmpty_eq_false.mpr hsegne, List.isEmpty_eq_false.mpr hsne]

/-- C1, counterexample to the claim as stated: self-match soundness fails for
turn sequences the external featurizer can produce — a turn carrying a
`_None` must-be-absent feature, a trailing turn with no features, and feature
names containing a space, the turn separator, or nothing at all. -/
theorem c1_self_match_counterexample :
    ruleIsGood (createFeatureKey [some [("a_None".toList, 1)]]) 0
      [("a_None".toList, 1)] = false ∧
    ruleIsGood (createFeatureKey [some [("prev_a".toList, 1)], some []]) 0 [] = false ∧
    ruleIsGood (createFeatureKey [some [("a b".toList, 1)]]) 0
      [("a b".toList, 1)] = false ∧
    ruleIsGood (createFeatureKey [some [("a|b".toList, 1)]]) 0
      [("a|b".toList, 1)] = false ∧
    ruleIsGood (createFeatureKey [some [("".toList, 1)]]) 0
      [("".toList, 1)] = false := by
  decide

/-- C1, witness: the amended self-match theorem applied to the one-turn
sequence carrying the feature `prev_action_listen`. -/
theorem c1_self_match_witness :
    ruleIsGood (createFeatureKey ([[("prev_action_listen".toList, 1)]].map some)) 0
      ([[("prev_action_listen".toList, 1)]].reverse.getD 0 []) = true :=
  c1_self_match_sound_amended [[("prev_action_listen".toList, 1)]]
    (by decide) (by decide) 0 (by decide)

/-- C2 (amended): a turn with no features contributes nothing to the feature
key — it is dropped, not kept as a positioned empty segment.  For separator
free feature names the key splits into a single leading empty segment followed
by one segment per non-empty turn in input order; when every turn is empty the
key is the empty string, which splits into one empty segment. -/
theorem c2_segments_amended (states : List Turn)
    (hclean : ∀ s ∈ states, ∀ q ∈ s, sepFreeName q.1 = true) :
    splitBar (createFeatureKey (states.map some))
      = if states.filter (fun s => !s.isEmpty) = [] then [[]]
        else [] :: (states.filter (fun s => !s.isEmpty)).map seg :=
  splitBar_createKey states hclean

/-- C2, counterexample to the claim as stated: two empty turns yield a key
with a single segment, not two, and for the sequence `[{a}, {}]` the segment
at the empty turn's position is `a`, not empty — positions do not reflect the
input turns. -/
theorem c2_segments_counterexample :
    (splitBar (createFeatureKey [some ([] : Turn), some ([] : Turn)])).length ≠ 2 ∧
    (splitBar (createFeatureKey [some [("a".toList, 1)], some ([] : Turn)])).getD 1 []
      ≠ [] := by
  decide

/-- C2, witness: the amended segment-structure theorem applied to the
sequence `[{a}, {}]`. -/
theorem c2_segments_witness :
    splitBar (createFeatureKey ([[("a".toList, 1)], []].map some))
      = if [[("a".toList, 1)], ([] : Turn)].filter (fun s => !s.isEmpty) = [] then [[]]
        else [] :: ([[("a".toList, 1)], ([] : Turn)].filter (fun s => !s.isEmpty)).map seg :=
  c2_segments_amended [[("a".toList, 1)], []] (by decide)

/-- C4 (amended): loading from a path where the blob file is absent yields an
empty policy — empty positive lookup and empty negative lookup — without
raising; a malformed blob, however, propagates the parse failure instead of
degrading to an empty policy. -/
theorem c4_load_amended :
    load Blob.absent = Except.ok emptyRulePolicy ∧
    emptyRulePolicy.lookup = [] ∧ emptyRulePolicy.negativeLookup = [] ∧
    load Blob.malformed = Except.error () := by
  refine ⟨rfl, rfl, rfl, rfl⟩

/-- C4, counterexample to the claim as stated: a malformed blob does not yield
an empty policy — `json.loads` raises and `load` installs no handler for it. -/
theorem c4_load_counterexample : load Blob.malformed = Except.error () := rfl

/-- C5: evaluation of training at the failing input — a story trace whose
featurized states are `[None, {active_form_myform: 1}]` with first action
`myform`.  The final state has an active form, so negative-rule mining calls
`_modified_states` on the two-turn window; its first entry is `None`, the code
sets `action_before_listen = None` and then unconditionally calls
`action_before_listen.keys()`, raising `AttributeError` — training does not
terminate normally. -/
theorem c5_train_raises :
    train [] [] [[none, some [("active_form_myform".toList, 1)]]]
      [["myform".toList]]
      ⟨["action_listen".toList, "myform".toList, "...".toList]⟩
      = Except.error () := rfl

/-- C6: default-action absoluteness — for every enabled prediction where the
latest executed action is listen-for-input and the latest parsed message's
intent is one of the three reserved intents, the prediction is the one-hot
vector at the mapped fixed action, regardless of the rule tables and of any
active form on the tracker. -/
theorem c6_default_action_absolute (p : RulePolicy) (t : Tracker) (d : Domain)
    (intent action : Str)
    (hen : p.isEnabled = true)
    (hlisten : t.latestActionName = some actionListenName)
    (hmsg : t.latestMessage = some (some intent))
    (hmap : dictGet? defaultActionMappings intent = some action) :
    (predictFull p t d).probabilities
      = (defaultPredictions d).set (d.indexForAction action) 1 := by
  have hrun : shouldRunRasaDefaultAction t = some action := by
    unfold shouldRunRasaDefaultAction
    rw [hlisten, hmsg, if_neg (by simp)]
    exact hmap
  simp only [predictFull, hen, Bool.not_true, Bool.false_eq_true, if_false, hrun]

/-- C6, witness: an enabled policy with a non-trivial rule table and an active
form still predicts `action_restart` when the latest action is listen and the
intent is `restart`. -/
theorem c6_default_action_witness :
    (predictFull
      ⟨true, [("|prev_action_listen".toList, 0)], []⟩
      ⟨some actionListenName, some (some "restart".toList), some "myform".toList,
        false, [], []⟩
      ⟨[actionListenName, "action_restart".toList, "myform".toList]⟩).probabilities
      = (defaultPredictions ⟨[actionListenName, "action_restart".toList,
          "myform".toList]⟩).set
          (Domain.indexForAction ⟨[actionListenName, "action_restart".toList,
            "myform".toList]⟩ "action_restart".toList) 1 :=
  c6_default_action_absolute _ _ _ "restart".toList "action_restart".toList
    rfl rfl rfl (by decide)

/-- C7: active-form precedence — for every enabled prediction not captured by
the default-action override, with an active non-rejected form, the prediction
is the one-hot vector at the form's action when the form's action did not just
run, and the one-hot vector at listen-for-input when it did, in both cases
bypassing rule matching. -/
theorem c7_active_form_precedence (p : RulePolicy) (t : Tracker) (d : Domain)
    (f : Str)
    (hen : p.isEnabled = true)
    (hdef : shouldRunRasaDefaultAction t = none)
    (hform : t.activeForm = some f)
    (hrej : t.activeFormRejected = false) :
    (t.latestActionName ≠ some f →
      (predictFull p t d).probabilities
        = (defaultPredictions d).set (d.indexForAction f) 1) ∧
    (t.latestActionName = some f →
      (predictFull p t d).probabilities
        = (defaultPredictions d).set (d.indexForAction actionListenName) 1) := by
  constructor
  · intro hne
    simp only [predictFull, hen, Bool.not_true, Bool.false_eq_true, if_false, hdef,
      hform, hrej, Option.isSome_some, Bool.not_false, Bool.true_and,
      decide_eq_true_eq]
    rw [if_pos hne]
    simp
  · intro heq
    simp only [predictFull, hen, Bool.not_true, Bool.false_eq_true, if_false, hdef,
      hform, hrej, Option.isSome_some, Bool.not_false, Bool.true_and,
      decide_eq_true_eq]
    rw [if_neg (not_not_intro heq), if_pos heq]

/-- C7, witness: with form `myform` active, not rejected, and not the latest
action, the prediction is the one-hot vector at `myform` even though a rule
matching the current state recalls listen-for-input. -/
theorem c7_active_form_witness :
    (predictFull
      ⟨true, [("|prev_action_listen".toList, 0)], []⟩
      ⟨some "other".toList, none, some "myform".toList, false,
        [[("prev_action_listen".toList, 1)]], []⟩
      ⟨[actionListenName, "myform".toList]⟩).probabilities
      = (defaultPredictions ⟨[actionListenName, "myform".toList]⟩).set
          (Domain.indexForAction ⟨[actionListenName, "myform".toList]⟩
            "myform".toList) 1 :=
  (c7_active_form_precedence _ _ _ "myform".toList rfl (by decide) rfl rfl).1 (by decide)

theorem maxByLen_foldl_mem (l : List Str) : ∀ acc : Str,
    l.foldl (fun best x => if x.length > best.length then x else best) acc = acc ∨
    l.foldl (fun best x => if x.length > best.length then x else best) acc ∈ l := by
  induction l with
  | nil => intro acc; exact Or.inl rfl
  | cons x xs ih =>
    intro acc
    simp only [List.foldl_cons]
    rcases ih (if x.length > acc.length then x else acc) with h | h
    · rw [h]
      split
      · exact Or.inr (List.mem_cons_self x xs)
      · exact Or.inl rfl
    · exact Or.inr (List.mem_cons_of_mem x h)

theorem maxByLen_foldl_ge (l : List Str) : ∀ acc : Str,
    acc.length ≤ (l.foldl (fun best x => if x.length > best.length then x else best) acc).length ∧
    ∀ q ∈ l, q.length ≤ (l.foldl (fun best x => if x.length > best.length then x else best) acc).length := by
  induction l with
  | nil => intro acc; exact ⟨Nat.le_refl _, by simp⟩
  | cons x xs ih =>
    intro acc
    simp only [List.foldl_cons]
    obtain ⟨hacc2, hall⟩ := ih (if x.length > acc.length then x else acc)
    have hax : acc.length ≤ (if x.length > acc.length then x else acc).length ∧
        x.length ≤ (if x.length > acc.length then x else acc).length := by
      split
      · next hgt => exact ⟨Nat.le_of_lt hgt, Nat.le_refl _⟩
      · next hle => exact ⟨Nat.le_refl _, Nat.le_of_not_lt hle⟩
    refine ⟨Nat.le_trans hax.1 hacc2, ?_⟩
    intro q hq
    rcases List.mem_cons.mp hq with hqx | hqxs
    · subst hqx
      exact Nat.le_trans hax.2 hacc2
    · exact hall q hqxs

theorem maxByLen_spec (l : List Str) (h : l ≠ []) :
    ∃ k, maxByLen l = some k ∧ k ∈ l ∧ ∀ q ∈ l, q.length ≤ k.length := by
  cases l with
  | nil => exact absurd rfl h
  | cons x xs =>
    refine ⟨xs.foldl (fun best x => if x.length > best.length then x else best) x,
      ?_, ?_, ?_⟩
    · rfl
    · rcases maxByLen_foldl_mem xs x with he | hm
      · rw [he]; exact List.mem_cons_self x xs
      · exact List.mem_cons_of_mem x hm
    · intro q hq
      obtain ⟨hx, hall⟩ := maxByLen_foldl_ge xs x
      rcases List.mem_cons.mp hq with hqx | hqxs
      · subst hqx
        exact hx
      · exact hall q hqxs

/-- C8: longest-match precedence — whenever at least two positive keys survive
filtering against the current turn sequence, one strictly longer than the
other, the chosen key is a survivor of maximal raw-string length and the
recalled action is the one the lookup maps for that chosen key. -/
theorem c8_longest_match (p : RulePolicy) (states : List Turn) (k1 k2 : Str)
    (h1 : k1 ∈ survivingKeys (p.lookup.map Prod.fst) states)
    (_h2 : k2 ∈ survivingKeys (p.lookup.map Prod.fst) states)
    (_hlen : k2.length < k1.length) :
    ((recalledKey p states).getD []) ∈ survivingKeys (p.lookup.map Prod.fst) states ∧
    (∀ q ∈ survivingKeys (p.lookup.map Prod.fst) states,
      q.length ≤ ((recalledKey p states).getD []).length) ∧
    recalledOf p states = dictGet? p.lookup ((recalledKey p states).getD []) := by
  have hne : survivingKeys (p.lookup.map Prod.fst) states ≠ [] :=
    List.ne_nil_of_mem h1
  obtain ⟨k, hk, hmem, hmax⟩ := maxByLen_spec _ hne
  have hkey : recalledKey p states = some k := hk
  rw [hkey]
  exact ⟨hmem, hmax, by rw [recalledOf, hkey]; rfl⟩

/-- C8, witness: with survivors `|prev_action_listen` and the strictly longer
`|prev_action_listen intent_greet`, the chosen key is the longer one and its
mapped action is recalled. -/
theorem c8_longest_match_witness :
    ((recalledKey
        ⟨true, [("|prev_action_listen".toList, 0),
                ("|prev_action_listen intent_greet".toList, 1)], []⟩
        [[("prev_action_listen".toList, 1), ("intent_greet".toList, 1)]]).getD [])
      ∈ survivingKeys
        ([("|prev_action_listen".toList, 0),
          ("|prev_action_listen intent_greet".toList, 1)].map Prod.fst)
        [[("prev_action_listen".toList, 1), ("intent_greet".toList, 1)]] ∧
    (∀ q ∈ survivingKeys
        ([("|prev_action_listen".toList, 0),
          ("|prev_action_listen intent_greet".toList, 1)].map Prod.fst)
        [[("prev_action_listen".toList, 1), ("intent_greet".toList, 1)]],
      q.length ≤ ((recalledKey
        ⟨true, [("|prev_action_listen".toList, 0),
                ("|prev_action_listen intent_greet".toList, 1)], []⟩
        [[("prev_action_listen".toList, 1), ("intent_greet".toList, 1)]]).getD []).length) ∧
    recalledOf
        ⟨true, [("|prev_action_listen".toList, 0),
                ("|prev_action_listen intent_greet".toList, 1)], []⟩
        [[("prev_action_listen".toList, 1), ("intent_greet".toList, 1)]]
      = dictGet? [("|prev_action_listen".toList, 0),
                  ("|prev_action_listen intent_greet".toList, 1)]
          ((recalledKey
            ⟨true, [("|prev_action_listen".toList, 0),
                    ("|prev_action_listen intent_greet".toList, 1)], []⟩
            [[("prev_action_listen".toList, 1), ("intent_greet".toList, 1)]]).getD []) :=
  c8_longest_match
    ⟨true, [("|prev_action_listen".toList, 0),
            ("|prev_action_listen intent_greet".toList, 1)], []⟩
    [[("prev_action_listen".toList, 1), ("intent_greet".toList, 1)]]
    "|prev_action_listen intent_greet".toList "|prev_action_listen".toList
    (by decide) (by decide) (by decide)

/-- C9: negative-rule exclusivity — with an active (rejected) form reaching
rule matching, when the surviving positive keys recall plain listen-for-input
via a chosen key that does not reference this form as active and a surviving
negative key carries the NoActiveForm marker, the prediction is the all-zero
vector: neither a re-invocation of the form nor listen-for-input. -/
theorem c9_negative_rule_exclusive (p : RulePolicy) (t : Tracker) (d : Domain)
    (f k : Str) (r : Nat)
    (hen : p.isEnabled = true)
    (hdef : shouldRunRasaDefaultAction t = none)
    (hform : t.activeForm = some f)
    (hrej : t.activeFormRejected = true)
    (hkey : recalledKey p t.states = some k)
    (hrec : dictGet? p.lookup k = some r)
    (hlist : d.actionNames.getD r [] = actionListenName)
    (hnref : subInStr (activeFormPfx ++ f) k = false)
    (hneg : (negMarkers p t.states).contains (some noActiveForm) = true) :
    (predictFull p t d).probabilities = defaultPredictions d := by
  have hgen : predictedListenFromGeneralRule p d t.states f = true := by
    unfold predictedListenFromGeneralRule
    rw [show recalledOf p t.states = some r by rw [recalledOf, hkey]; exact hrec, hkey]
    dsimp only
    rw [hlist, hnref]
    simp
  simp only [predictFull, hen, Bool.not_true, Bool.false_eq_true, if_false, hdef,
    hform, hrej, Option.isSome_some, Bool.not_true, Bool.true_and, Bool.false_and,
    Bool.and_false, if_false, hgen, if_true, hneg, Bool.not_true, Bool.false_eq_true]

/-- C9, witness: a general rule recalling listen for the rejected active form
`myform`, together with a surviving NoActiveForm negative rule, yields the
all-zero vector. -/
theorem c9_negative_rule_witness :
    (predictFull
      ⟨true, [("|prev_action_listen".toList, 0)],
        [("|prev_action_listen".toList, noActiveForm)]⟩
      ⟨some "other".toList, none, some "myform".toList, true,
        [[("prev_action_listen".toList, 1)]], []⟩
      ⟨[actionListenName, "myform".toList]⟩).probabilities
      = defaultPredictions ⟨[actionListenName, "myform".toList]⟩ :=
  c9_negative_rule_exclusive
    ⟨true, [("|prev_action_listen".toList, 0)],
      [("|prev_action_listen".toList, noActiveForm)]⟩
    ⟨some "other".toList, none, some "myform".toList, true,
      [[("prev_action_listen".toList, 1)]], []⟩
    ⟨[actionListenName, "myform".toList]⟩
    "myform".toList "|prev_action_listen".toList 0
    rfl (by decide) rfl rfl (by decide) (by decide) (by decide) (by decide) (by decide)

/-- C3 (amended): with an active form reaching rule matching, when NoValidation
is among the surviving negative markers the skip-validation event
`FormValidation(False)` is appended to the tracker — unless the recalled
action is plain listen from a general rule and NoActiveForm is not among the
surviving markers, in which case the code overrides listen with the form and
returns before the NoValidation check. -/
theorem c3_no_validation_amended (p : RulePolicy) (t : Tracker) (d : Domain)
    (f : Str)
    (hen : p.isEnabled = true)
    (hdef : shouldRunRasaDefaultAction t = none)
    (hform : t.activeForm = some f)
    (hrej : t.activeFormRejected = true)
    (hnv : (negMarkers p t.states).contains (some noValidation) = true)
    (hnot : predictedListenFromGeneralRule p d t.states f = false ∨
      (negMarkers p t.states).contains (some noActiveForm) = true) :
    (predictFull p t d).tracker.events = t.events ++ [Event.formValidation false] := by
  simp only [predictFull, hen, Bool.not_true, Bool.false_eq_true, if_false, hdef,
    hform, hrej, Option.isSome_some, Bool.not_true, Bool.true_and, Bool.false_and,
    Bool.and_false, if_false]
  rcases hnot with hg | hno
  · rw [hg]
    simp only [Bool.false_eq_true, if_false, hnv, if_true]
    cases recalledOf p t.states <;> rfl
  · by_cases hg : predictedListenFromGeneralRule p d t.states f = true
    · rw [hg]
      simp only [if_true, hno, Bool.not_true, Bool.false_eq_true, if_false, hnv,
        if_true]
      rfl
    · rw [Bool.not_eq_true] at hg
      rw [hg]
      simp only [Bool.false_eq_true, if_false, hnv, if_true]
      cases recalledOf p t.states <;> rfl

/-- C3, counterexample to the claim as stated: a prediction with active
(rejected) form `myform`, a NoValidation marker among the surviving negative
keys, and a general rule recalling listen, where the override-to-form path
returns early — the claim requires the skip-validation event regardless of
the predicted action, but no event is appended. -/
theorem c3_no_validation_counterexample :
    (negMarkers
      ⟨true, [("|prev_action_listen".toList, 0)],
        [("|prev_action_listen".toList, noValidation)]⟩
      [[("prev_action_listen".toList, 1)]]).contains (some noValidation) = true ∧
    (predictFull
      ⟨true, [("|prev_action_listen".toList, 0)],
        [("|prev_action_listen".toList, noValidation)]⟩
      ⟨some "other".toList, none, some "myform".toList, true,
        [[("prev_action_listen".toList, 1)]], []⟩
      ⟨[actionListenName, "myform".toList]⟩).tracker.events = [] := by
  decide

/-- C3, witness: with no positive rule surviving (so no listen override) and a
surviving NoValidation negative rule, the skip-validation event is appended. -/
theorem c3_no_validation_witness :
    (predictFull
      ⟨true, [], [("|prev_action_listen".toList, noValidation)]⟩
      ⟨some "other".toList, none, some "myform".toList, true,
        [[("prev_action_listen".toList, 1)]], []⟩
      ⟨[actionListenName, "myform".toList]⟩).tracker.events
      = [] ++ [Event.formValidation false] :=
  c3_no_validation_amended
    ⟨true, [], [("|prev_action_listen".toList, noValidation)]⟩
    ⟨some "other".toList, none, some "myform".toList, true,
      [[("prev_action_listen".toList, 1)]], []⟩
    ⟨[actionListenName, "myform".toList]⟩
    "myform".toList rfl (by decide) rfl rfl (by decide) (Or.inl (by decide))

/-- C10: prediction does not modify the rule tables — for every policy,
tracker and domain, the policy object after `predict_action_probabilities` is
unchanged (in particular its positive and negative lookups), and the only
tracker effect is the optional skip-validation event appended to the event
log. -/
theorem c10_predict_frame (p : RulePolicy) (t : Tracker) (d : Domain) :
    (predictFull p t d).policy = p ∧
    ((predictFull p t d).tracker.events = t.events ∨
     (predictFull p t d).tracker.events = t.events ++ [Event.formValidation false]) := by
  unfold predictFull
  dsimp only
  repeat' split
  all_goals
    first
    | exact ⟨rfl, Or.inl rfl⟩
    | exact ⟨rfl, Or.inr rfl⟩

end RulePolicyModel
